import Mathlib

/-!
Verification of the rank-tracking core of the Amore-sheets tournament tracker
(`opgg_tracker.py`).  Python strings are modelled as lists of Unicode scalar
values (`Str := List Char`), matching CPython's view of `str` as a sequence of
code points.  Pure functions of the source are translated one-to-one; the
regular-expression extractions of `parse_opgg_response` are translated as
explicit character scanners implementing the leftmost / non-overlapping match
semantics of `re.search` / `re.findall` for the three concrete patterns of the
source (each quantifier in those patterns is followed by a character that is
outside the quantified class, so maximal munch without backtracking is exact
for these patterns).  `str.upper` / `str.lower` are modelled on the ASCII
letters (all strings manipulated by the source are ASCII), and `\d` is
modelled as the ASCII digits.
-/

/-- Python `str` modelled as the list of its code points. -/
abbrev Str := List Char

def strOf (s : String) : Str := s.data

/-- ASCII uppercase letter, the character class `[A-Z]` of the source regexes. -/
def isUpperAZ (c : Char) : Bool := 'A' ≤ c && c ≤ 'Z'

/-- ASCII letter (either case). -/
def isAsciiLetter (c : Char) : Bool := isUpperAZ c || ('a' ≤ c && c ≤ 'z')

/-- ASCII digit, the character class `\d` of the source regexes. -/
def isDigitC (c : Char) : Bool := '0' ≤ c && c ≤ '9'

/-- Python whitespace for `str.strip` / `str.split` (ASCII fragment). -/
def isPySpace (c : Char) : Bool :=
  c = ' ' || c = '\t' || c = '\n' || c = '\x0d' || c = '\x0b' || c = '\x0c'

/-- `str.upper` on one character (ASCII fragment). -/
def pyUpperChar (c : Char) : Char :=
  if 'a' ≤ c && c ≤ 'z' then Char.ofNat (c.toNat - 32) else c

/-- `str.lower` on one character (ASCII fragment). -/
def pyLowerChar (c : Char) : Char :=
  if 'A' ≤ c && c ≤ 'Z' then Char.ofNat (c.toNat + 32) else c

/-- Python `str.upper`. -/
def pyUpper (s : Str) : Str := s.map pyUpperChar

/-- Python `str.lower`. -/
def pyLower (s : Str) : Str := s.map pyLowerChar

/-- Python `str.strip()`: drop leading and trailing whitespace. -/
def pyStrip (s : Str) : Str :=
  ((s.dropWhile isPySpace).reverse.dropWhile isPySpace).reverse

/-- Helper of `splitWs`: accumulates the current word (reversed) while
scanning.  Structural recursion so that the kernel can evaluate it. -/
def splitWsAux (cur : Str) : Str → List Str
  | [] => if cur = [] then [] else [cur.reverse]
  | c :: cs =>
    if isPySpace c then
      if cur = [] then splitWsAux [] cs else cur.reverse :: splitWsAux [] cs
    else splitWsAux (c :: cur) cs

/-- Python `str.split()` with no argument: split on runs of whitespace,
discarding empty fields. -/
def splitWs (s : Str) : List Str := splitWsAux [] s

/-- Association-list lookup, modelling Python `dict.get` on the literal
dictionaries of the source (keys are strings). -/
def lookupL {α : Type} : List (Str × α) → Str → Option α
  | [], _ => none
  | (k, v) :: rest, key => if k = key then some v else lookupL rest key

/-- `n in s` for Python strings: `needle` occurs as a contiguous substring. -/
def hasSub (needle : Str) : Str → Bool
  | [] => needle = []
  | c :: cs => needle.isPrefixOf (c :: cs) || hasSub needle cs

/-- `s.split(sep, 1)` preceded by `sep in s`: split at the first occurrence
of `sep`; `none` when `sep` does not occur.  `sep` is nonempty at every call
site of the source. -/
def splitFirst (sep : Str) : Str → Option (Str × Str)
  | [] => none
  | c :: cs =>
    if sep.isPrefixOf (c :: cs) then some ([], (c :: cs).drop sep.length)
    else (splitFirst sep cs).map (fun p => (c :: p.1, p.2))

/-- Python `int` on a nonempty string of ASCII digits. -/
def natOfDigits (s : Str) : Nat := s.foldl (fun n c => 10 * n + (c.toNat - 48)) 0

-- ===========================================================================
-- Configuration tables of the source (`opgg_tracker.py`, lines 27-42)
-- ===========================================================================

/-- `REGIONS = ["eune", "euw", "tr", "ru", "na", "kr"]`. -/
def REGIONS : List Str :=
  [strOf "eune", strOf "euw", strOf "tr", strOf "ru", strOf "na", strOf "kr"]

/-- A value of the heterogeneous `LP_TABLE` dict: per-division bases for the
sub-apex tiers, a single flat base for the apex tiers. -/
inductive LPEntry where
  | table (d : List (Str × Int))
  | flat (n : Int)

/-- `LP_TABLE` (lines 29-38). -/
def LP_TABLE : List (Str × LPEntry) :=
  [ (strOf "IRON", .table [(strOf "IV", 0), (strOf "III", 100), (strOf "II", 200), (strOf "I", 300)]),
    (strOf "BRONZE", .table [(strOf "IV", 400), (strOf "III", 500), (strOf "II", 600), (strOf "I", 700)]),
    (strOf "SILVER", .table [(strOf "IV", 800), (strOf "III", 900), (strOf "II", 1000), (strOf "I", 1100)]),
    (strOf "GOLD", .table [(strOf "IV", 1200), (strOf "III", 1300), (strOf "II", 1400), (strOf "I", 1500)]),
    (strOf "PLATINUM", .table [(strOf "IV", 1600), (strOf "III", 1700), (strOf "II", 1800), (strOf "I", 1900)]),
    (strOf "EMERALD", .table [(strOf "IV", 2000), (strOf "III", 2100), (strOf "II", 2200), (strOf "I", 2300)]),
    (strOf "DIAMOND", .table [(strOf "IV", 2400), (strOf "III", 2500), (strOf "II", 2600), (strOf "I", 2700)]),
    (strOf "MASTER", .flat 2800),
    (strOf "GRANDMASTER", .flat 3000),
    (strOf "CHALLENGER", .flat 3300) ]

/-- `TIER_ORDER` (lines 40-41). -/
def TIER_ORDER : List Str :=
  [strOf "IRON", strOf "BRONZE", strOf "SILVER", strOf "GOLD", strOf "PLATINUM",
   strOf "EMERALD", strOf "DIAMOND", strOf "MASTER", strOf "GRANDMASTER",
   strOf "CHALLENGER"]

/-- `DIV_ORDER` (line 42). -/
def DIV_ORDER : List (Str × Int) :=
  [(strOf "IV", 0), (strOf "III", 1), (strOf "II", 2), (strOf "I", 3),
   (strOf "4", 0), (strOf "3", 1), (strOf "2", 2), (strOf "1", 3)]

/-- The three apex tier names (list literal repeated at lines 128 and 134). -/
def APEX_TIERS : List Str := [strOf "MASTER", strOf "GRANDMASTER", strOf "CHALLENGER"]

/-- `Python list.index` restricted to the use `TIER_ORDER.index(t)` guarded by
`t in TIER_ORDER`; `-1` when absent (lines 151-152). -/
def tierIndexAux (t : Str) : List Str → Int
  | [] => -1
  | x :: xs =>
    if x = t then 0
    else
      let r := tierIndexAux t xs
      if r < 0 then -1 else r + 1

/-- `TIER_ORDER.index(t1) if t1 in TIER_ORDER else -1`. -/
def tier_index (t : Str) : Int := tierIndexAux t TIER_ORDER

-- ===========================================================================
-- Rank model (`format_rank`, `calculate_lp`, `compare_ranks`, lines 124-157)
-- ===========================================================================

/-- `format_rank` (lines 124-128). -/
def format_rank (tier division : Str) : Str :=
  if tier = [] ∨ pyUpper tier ∈ [strOf "UNRANKED", strOf "NULL"] then strOf "UNRANKED"
  else
    let t := pyUpper tier
    if t ∈ APEX_TIERS then t else t ++ ' ' :: division

/-- `calculate_lp` (lines 130-137).  In the apex branch the looked-up value is
always a `flat` entry (the key is one of the three apex names), so the
`table` case there is unreachable; it is mapped to the `dict.get` default 0. -/
def calculate_lp (tier division : Str) (lp : Int) : Int :=
  if tier = [] ∨ tier = strOf "UNRANKED" then 0
  else
    let t := pyUpper tier
    if t ∈ APEX_TIERS then
      (match lookupL LP_TABLE t with
       | some (.flat b) => b
       | _ => 0) + lp
    else
      match lookupL LP_TABLE t with
      | some (.table d) => (lookupL d division).getD 0 + lp
      | _ => 0

/-- `compare_ranks` (lines 139-157).  The source indexes `p1[0]` directly and
would raise on a non-empty all-whitespace string; such strings are not
formatted rank strings, and all theorems below restrict to inputs whose token
list is nonempty (`headD` is only a totalisation device). -/
def compare_ranks (rank1 rank2 : Str) : Int :=
  if rank1 = [] ∨ rank1 = strOf "UNRANKED" then
    if rank2 ≠ [] ∧ rank2 ≠ strOf "UNRANKED" then -1 else 0
  else if rank2 = [] ∨ rank2 = strOf "UNRANKED" then 1
  else
    let p1 := splitWs (pyUpper rank1)
    let p2 := splitWs (pyUpper rank2)
    let t1 := p1.headD []
    let t2 := p2.headD []
    let d1 := if p1.length > 1 then p1.getD 1 [] else strOf "I"
    let d2 := if p2.length > 1 then p2.getD 1 [] else strOf "I"
    let ti1 := if t1 ∈ TIER_ORDER then tier_index t1 else -1
    let ti2 := if t2 ∈ TIER_ORDER then tier_index t2 else -1
    if ti1 ≠ ti2 then (if ti1 > ti2 then 1 else -1)
    else
      let di1 := (lookupL DIV_ORDER d1).getD 0
      let di2 := (lookupL DIV_ORDER d2).getD 0
      if di1 > di2 then 1 else if di1 < di2 then -1 else 0

example : compare_ranks (strOf "GOLD II") (strOf "SILVER I") = 1 := by decide
example : compare_ranks (strOf "UNRANKED") (strOf "IRON IV") = -1 := by decide
example : compare_ranks (strOf "MASTER") (strOf "GRANDMASTER") = -1 := by decide
example : compare_ranks (strOf "ZZZ I") (strOf "IRON IV") = -1 := by decide
example : calculate_lp (strOf "GOLD") (strOf "III") 45 = 1345 := by decide
example : calculate_lp (strOf "MASTER") (strOf "I") 10 = 2810 := by decide
example : calculate_lp (strOf "WOOD") (strOf "I") 10 = 0 := by decide
example : format_rank (strOf "gold") (strOf "II") = strOf "GOLD II" := by decide
example : format_rank (strOf "NULL") (strOf "II") = strOf "UNRANKED" := by decide
example : format_rank (strOf "CHALLENGER") (strOf "I") = strOf "CHALLENGER" := by decide

-- ===========================================================================
-- Response parser (`parse_opgg_response`, lines 187-227)
-- ===========================================================================

/-- Match a literal string at the head of the input, returning the rest. -/
def matchLit : Str → Str → Option Str
  | [], s => some s
  | _ :: _, [] => none
  | l :: ls, c :: cs => if c = l then matchLit ls cs else none

/-- Maximal-munch match of one-or-more characters of class `p` (`[A-Z]+`,
`\d+`): the matched run and the rest; `none` when the run is empty. -/
def munch1 (p : Char → Bool) (s : Str) : Option (Str × Str) :=
  if s.takeWhile p = [] then none else some (s.takeWhile p, s.dropWhile p)

/-- Attempt of the pattern
`LeagueStat\("SOLORANKED",TierInfo\("([A-Z]+)",(\d+),(\d+)` at the head of the
input: tier, division number, league points. -/
def matchCurrentAt (s : Str) : Option (Str × Nat × Nat) := do
  let r1 ← matchLit (strOf "LeagueStat(\"SOLORANKED\",TierInfo(\"") s
  let (tier, r2) ← munch1 isUpperAZ r1
  let r3 ← matchLit (strOf "\",") r2
  let (ds, r4) ← munch1 isDigitC r3
  let r5 ← matchLit (strOf ",") r4
  let (ls, _) ← munch1 isDigitC r5
  some (tier, natOfDigits ds, natOfDigits ls)

/-- `re.search` for the current-rank pattern: first position (leftmost) where
the pattern matches. -/
def searchCurrent : Str → Option (Str × Nat × Nat)
  | [] => none
  | c :: cs =>
    match matchCurrentAt (c :: cs) with
    | some r => some r
    | none => searchCurrent cs

/-- Attempt of the pattern `RankEntrie1\("[A-Z]+",RankInfo\("([A-Z]+)",(\d+),`
at the head of the input: captured tier and division, plus the rest of the
input after the match (for non-overlapping `findall`). -/
def matchTopAt (s : Str) : Option (Str × Nat × Str) := do
  let r1 ← matchLit (strOf "RankEntrie1(\"") s
  let (_, r2) ← munch1 isUpperAZ r1
  let r3 ← matchLit (strOf "\",RankInfo(\"") r2
  let (tier, r4) ← munch1 isUpperAZ r3
  let r5 ← matchLit (strOf "\",") r4
  let (ds, r6) ← munch1 isDigitC r5
  let r7 ← matchLit (strOf ",") r6
  some (tier, natOfDigits ds, r7)

/-- Attempt of the pattern `PreviousSeason\(\d+,TierInfo\d*\("([A-Z]+)",(\d+)`
at the head of the input. -/
def matchPrevAt (s : Str) : Option (Str × Nat × Str) := do
  let r1 ← matchLit (strOf "PreviousSeason(") s
  let (_, r2) ← munch1 isDigitC r1
  let r3 ← matchLit (strOf ",TierInfo") r2
  let r4 := r3.dropWhile isDigitC
  let r5 ← matchLit (strOf "(\"") r4
  let (tier, r6) ← munch1 isUpperAZ r5
  let r7 ← matchLit (strOf "\",") r6
  let (ds, r8) ← munch1 isDigitC r7
  some (tier, natOfDigits ds, r8)

/-- `re.findall` driver: scan left to right; on a match, emit the captured
groups and resume after the match (non-overlapping); otherwise advance one
character.  The fuel argument (instantiated with the input length, which
bounds the number of steps since every step strictly consumes input) keeps
the recursion structural so the kernel can evaluate it. -/
def findallAux (matchAt : Str → Option (Str × Nat × Str)) : Nat → Str → List (Str × Nat)
  | 0, _ => []
  | _, [] => []
  | n + 1, c :: cs =>
    match matchAt (c :: cs) with
    | some (t, d, rest) => (t, d) :: findallAux matchAt n rest
    | none => findallAux matchAt n cs

/-- `re.findall` of the `RankEntrie1` pattern. -/
def findallTop (s : Str) : List (Str × Nat) := findallAux matchTopAt s.length s

/-- `re.findall` of the `PreviousSeason` pattern. -/
def findallPrev (s : Str) : List (Str × Nat) := findallAux matchPrevAt s.length s

/-- `{1: "I", 2: "II", 3: "III", 4: "IV"}.get(div, "IV")` (lines 198/212/221):
the explicit key tests of the dict lookup, with the shared `"IV"` default
(the key-4 entry and the default coincide). -/
def div_roman (d : Nat) : Str :=
  if d = 1 then strOf "I" else if d = 2 then strOf "II"
  else if d = 3 then strOf "III" else strOf "IV"

/-- `text.replace("\n", "").replace("\r", "")` (line 189). -/
def cleanText (s : Str) : Str := (s.filter (· ≠ '\n')).filter (· ≠ '\x0d')

/-- Result dict of `parse_opgg_response`. -/
structure ParseResult where
  current_rank : Str
  current_lp : Int
  peak_rank : Str
deriving DecidableEq

/-- One step of the peak fold (body of the two `for` loops, lines 211-224):
replace the running best when the candidate compares strictly greater. -/
def peakStep (best : Str) (p : Str × Nat) : Str :=
  let rank := format_rank p.1 (div_roman p.2)
  if compare_ranks rank best > 0 then rank else best

/-- The current-rank extraction of `parse_opgg_response` (lines 195-200), on
the already-cleaned text: the formatted rank and the league points, with the
`("UNRANKED", 0)` defaults when the pattern does not match. -/
def extract_current (t : Str) : Str × Int :=
  match searchCurrent t with
  | some (tier, dv, lp) => (format_rank tier (div_roman dv), (lp : Int))
  | none => (strOf "UNRANKED", 0)

/-- `parse_opgg_response` (lines 187-227). -/
def parse_opgg_response (text : Str) : ParseResult :=
  let t := cleanText text
  let cur := extract_current t
  let best0 := if cur.1 ≠ strOf "UNRANKED" then cur.1 else strOf "UNRANKED"
  let best1 := (findallTop t).foldl peakStep best0
  let best2 := (findallPrev t).foldl peakStep best1
  { current_rank := cur.1, current_lp := cur.2, peak_rank := best2 }

example :
    parse_opgg_response
      (strOf "LeagueStat(\"SOLORANKED\",TierInfo(\"GOLD\",4,12,null,x))") =
    { current_rank := strOf "GOLD IV", current_lp := 12, peak_rank := strOf "GOLD IV" } := by
  decide

example :
    parse_opgg_response
      (strOf "PreviousSeason(31,TierInfo1(\"SILVER\",3))PreviousSeason(21,TierInfo(\"GRANDMASTER\",1,640,null))") =
    { current_rank := strOf "UNRANKED", current_lp := 0, peak_rank := strOf "GRANDMASTER" } := by
  decide

-- ===========================================================================
-- Identity parser (`parse_riot_id`, lines 83-98)
-- ===========================================================================

/-- `re.search(r'\s*\(([^)]+)\)\s*$', s)` on an already-stripped string,
returning (text before the match, group 1).  The leftmost match of this
end-anchored pattern exists iff the string ends in `)` and, between the last
`)`-free position run and that final `)`, there is a `(` with a nonempty
remainder; group 1 runs from the first such `(` (leftmost match start) to the
final `)`. -/
def parenHint (s : Str) : Option (Str × Str) :=
  match s.reverse with
  | c :: rest =>
    if c = ')' then
      let revZone := rest.takeWhile (fun x => x ≠ ')')
      let after := rest.drop revZone.length
      let zone := revZone.reverse
      match zone.dropWhile (fun x => x ≠ '(') with
      | _ :: content =>
        if content = [] then none
        else some (after.reverse ++ zone.takeWhile (fun x => x ≠ '('), content)
      | [] => none
    else none
  | [] => none

/-- `parse_riot_id` (lines 83-98): `(name, tag, region_hint)`. -/
def parse_riot_id (riot_id : Str) : Str × Str × Str :=
  let s0 := pyStrip riot_id
  let hs : Str × Str :=
    match parenHint s0 with
    | some (pre, content) => (pyStrip pre, pyLower (pyStrip content))
    | none => (s0, [])
  let s := hs.1
  let region_hint := hs.2
  match splitFirst (strOf " #") s with
  | some (l, r) => (pyStrip l, pyStrip r, region_hint)
  | none =>
    match splitFirst (strOf "#") s with
    | some (l, r) => (pyStrip l, pyStrip r, region_hint)
    | none => (s, [], region_hint)

example : parse_riot_id (strOf "Faker#KR1 (kr)") = (strOf "Faker", strOf "KR1", strOf "kr") := by
  decide
example : parse_riot_id (strOf "Spoon#loh (euwest)") = (strOf "Spoon", strOf "loh", strOf "euwest") := by
  decide
example : parse_riot_id (strOf "a#b #c") = (strOf "a#b", strOf "c", []) := by decide

-- ===========================================================================
-- Lookup orchestration (`fetch_player`, lines 229-301)
-- ===========================================================================

/-- `REGION_ALIASES` (line 252). -/
def REGION_ALIASES : List (Str × Str) :=
  [(strOf "euwest", strOf "euw"), (strOf "eueast", strOf "eune"),
   (strOf "euwe", strOf "euw"), (strOf "west", strOf "euw"),
   (strOf "east", strOf "eune")]

/-- `if region_hint: region_hint = REGION_ALIASES.get(region_hint, region_hint)`
(lines 253-254). -/
def normalize_hint (h : Str) : Str :=
  if h ≠ [] then (lookupL REGION_ALIASES h).getD h else h

/-- `list(dict.fromkeys(l))`: remove duplicates keeping first occurrences. -/
def dedupAux (seen : List Str) : List Str → List Str
  | [] => []
  | x :: xs => if x ∈ seen then dedupAux seen xs else x :: dedupAux (x :: seen) xs

def dedupFirst (l : List Str) : List Str := dedupAux [] l

/-- Region priority construction of `fetch_player` (lines 251-263). -/
def build_regions (region_hint tag : Str) : List Str :=
  let hint := normalize_hint region_hint
  let l := (if hint ≠ [] then [hint] else [])
        ++ (if pyLower tag ∈ REGIONS then [pyLower tag] else [])
        ++ REGIONS
  dedupFirst l

/-- The region list the claim describes, written from the claim's words:
the hint is placed first only "if present and valid", validity being
membership in the known-region list. -/
def build_regions_claimed (region_hint tag : Str) : List Str :=
  let hint := normalize_hint region_hint
  let l := (if hint ≠ [] ∧ hint ∈ REGIONS then [hint] else [])
        ++ (if pyLower tag ∈ REGIONS then [pyLower tag] else [])
        ++ REGIONS
  dedupFirst l

example : build_regions (strOf "euwest") (strOf "TAG") =
    [strOf "euw", strOf "eune", strOf "tr", strOf "ru", strOf "na", strOf "kr"] := by decide
example : build_regions [] (strOf "KR") =
    [strOf "kr", strOf "eune", strOf "euw", strOf "tr", strOf "ru", strOf "na"] := by decide

/-- Player record (dataclass `Player`, lines 48-60), with the fields the
rank pipeline touches.  The two OP.GG URL fields are I/O plumbing (they hold
`get_opgg_url` output, a percent-encoded URL) and are carried opaquely. -/
structure Player where
  discord : Str := []
  tournament_account : Str := []
  main_account : Str := []
  role : Str := []
  current_rank : Str := strOf "UNRANKED"
  current_lp : Int := 0
  peak_rank : Str := strOf "UNRANKED"
  total_lp : Int := 0
  region : Str := []
deriving DecidableEq

/-- Acceptance test of the region loop (lines 265-273): a region is a hit
when fetching returns a response and either a concrete rank was extracted or
the queried name occurs case-insensitively in the response text. -/
def region_hit (fetch : Str → Option Str) (name : Str) (r : Str) : Bool :=
  match fetch r with
  | none => false
  | some text =>
    let d := parse_opgg_response text
    decide ¬(d.current_rank = strOf "UNRANKED" ∧ d.peak_rank = strOf "UNRANKED"
      ∧ hasSub (pyLower name) (pyLower text) = false)

/-- The region loop of `fetch_player` (lines 265-301): try regions in order,
return the first hit together with its parsed data; `none` when exhausted.
`fetch` abstracts the external collaborator `fetch_from_opgg`. -/
def fetch_loop (fetch : Str → Option Str) (name : Str) : List Str → Option (Str × ParseResult)
  | [] => none
  | r :: rs =>
    match fetch r with
    | none => fetch_loop fetch name rs
    | some text =>
      let data := parse_opgg_response text
      if data.current_rank = strOf "UNRANKED" ∧ data.peak_rank = strOf "UNRANKED"
          ∧ hasSub (pyLower name) (pyLower text) = false then
        fetch_loop fetch name rs
      else some (r, data)

/-- Field updates on a hit (lines 275-283): rank fields, region, and the
total-LP conversion of the current rank. -/
def apply_hit (p : Player) (region : Str) (d : ParseResult) : Player :=
  let p1 : Player :=
    { p with current_rank := d.current_rank, current_lp := d.current_lp,
             peak_rank := d.peak_rank, region := region }
  if p1.current_rank ≠ strOf "UNRANKED" then
    let parts := splitWs p1.current_rank
    let div := if parts.length > 1 then parts.getD 1 [] else strOf "I"
    { p1 with total_lp := calculate_lp (parts.headD []) div p1.current_lp }
  else p1

/-- The region-loop portion of `fetch_player` as a player transformer: the
player is updated only on a hit, and left untouched when every region is
exhausted (lines 265-301). -/
def fetch_player_regions (fetch : Str → Option Str) (name : Str)
    (regions : List Str) (p : Player) : Player :=
  match fetch_loop fetch name regions with
  | none => p
  | some (r, d) => apply_hit p r d

-- ===========================================================================
-- Aggregation (`main`, lines 473-477) and team records
-- ===========================================================================

/-- Team record (dataclass `Team`, lines 62-70). -/
structure Team where
  name : Str := []
  short_name : Str := []
  logo_url : Str := []
  description : Str := []
  players : List Player := []
  regular_score : Int := 0
  total_score : Int := 0
deriving DecidableEq

/-- Score computation of `main` (lines 473-474):
`regular_score = sum(p.total_lp for p in team.players[:5])`,
`total_score = sum(p.total_lp for p in team.players)`. -/
def score_team (t : Team) : Team :=
  { t with regular_score := ((t.players.take 5).map Player.total_lp).sum,
           total_score := (t.players.map Player.total_lp).sum }

/-- Stable insertion (descending `regular_score`): the new element goes in
front of the first list element whose score is less than or equal to its own;
elements inserted later (= later in the original list) therefore never
overtake earlier equal-score elements. -/
def insertTeamDesc (x : Team) : List Team → List Team
  | [] => [x]
  | y :: ys =>
    if y.regular_score ≤ x.regular_score then x :: y :: ys
    else y :: insertTeamDesc x ys

/-- `teams.sort(key=lambda t: t.regular_score, reverse=True)` (line 477).
CPython's `list.sort` is stable also under `reverse=True`; a stable sort is
uniquely determined by its comparison key, so it is modelled by stable
insertion sort. -/
def sort_teams : List Team → List Team
  | [] => []
  | x :: xs => insertTeamDesc x (sort_teams xs)

-- ===========================================================================
-- Character-arithmetic helpers
-- ===========================================================================

theorem char_eq_iff_toNat {c d : Char} : c = d ↔ c.toNat = d.toNat := by
  constructor
  · intro h; rw [h]
  · intro h
    apply Char.eq_of_val_eq
    apply UInt32.eq_of_val_eq
    apply Fin.ext
    exact h

theorem char_toNat_ofNat_valid {n : Nat} (hv : n.isValidChar) :
    (Char.ofNat n).toNat = n := by
  unfold Char.ofNat
  rw [dif_pos hv]
  unfold Char.ofNatAux Char.toNat UInt32.toNat
  simp

theorem isUpperAZ_iff {c : Char} : isUpperAZ c = true ↔ 65 ≤ c.toNat ∧ c.toNat ≤ 90 := by
  unfold isUpperAZ
  rw [Bool.and_eq_true, decide_eq_true_eq, decide_eq_true_eq]
  exact Iff.rfl

theorem isAsciiLetter_iff {c : Char} :
    isAsciiLetter c = true ↔ (65 ≤ c.toNat ∧ c.toNat ≤ 90) ∨ (97 ≤ c.toNat ∧ c.toNat ≤ 122) := by
  unfold isAsciiLetter
  rw [Bool.or_eq_true, isUpperAZ_iff, Bool.and_eq_true, decide_eq_true_eq, decide_eq_true_eq]
  exact Iff.rfl

/-- `str.upper` sends ASCII letters to ASCII uppercase letters. -/
theorem pyUpperChar_letter {c : Char} (h : isAsciiLetter c = true) :
    isUpperAZ (pyUpperChar c) = true := by
  rw [isAsciiLetter_iff] at h
  unfold pyUpperChar
  rcases h with ⟨h1, h2⟩ | ⟨h1, h2⟩
  · have hlz : ¬ ('a' ≤ c) := by
      intro hc
      have : 97 ≤ c.toNat := hc
      omega
    simp only [decide_eq_false hlz, Bool.false_and, if_false]
    rw [isUpperAZ_iff]
    exact ⟨h1, h2⟩
  · have hla : 'a' ≤ c := show 97 ≤ c.toNat from h1
    have hlz : c ≤ 'z' := show c.toNat ≤ 122 from h2
    simp only [decide_eq_true hla, decide_eq_true hlz, Bool.and_self, if_true]
    rw [isUpperAZ_iff]
    have hv : (c.toNat - 32).isValidChar := Or.inl (by omega)
    rw [char_toNat_ofNat_valid hv]
    omega

-- ===========================================================================
-- A numeric key capturing `compare_ranks`
-- ===========================================================================

/-- Numeric key of a rank string for the tier/division comparison: `(-2, 0)`
for the falsy/`"UNRANKED"` bottom, otherwise `(tier index or -1, division
index)`, computed by the same expressions as `compare_ranks`. -/
def rank_key (s : Str) : Int × Int :=
  if s = [] ∨ s = strOf "UNRANKED" then (-2, 0)
  else
    let p := splitWs (pyUpper s)
    let t := p.headD []
    let d := if p.length > 1 then p.getD 1 [] else strOf "I"
    (if t ∈ TIER_ORDER then tier_index t else -1, (lookupL DIV_ORDER d).getD 0)

/-- Three-way lexicographic sign on integer pairs. -/
def pcmp (p q : Int × Int) : Int :=
  if p.1 ≠ q.1 then (if p.1 > q.1 then 1 else -1)
  else if p.2 > q.2 then 1 else if p.2 < q.2 then -1 else 0

theorem tierIndexAux_ge (t : Str) (l : List Str) : -1 ≤ tierIndexAux t l := by
  induction l with
  | nil => norm_num [tierIndexAux]
  | cons x xs ih =>
    by_cases hx : x = t
    · simp [tierIndexAux, hx]
    · simp only [tierIndexAux, if_neg hx]
      split_ifs <;> omega

theorem rank_key_bottom {s : Str} (h : s = [] ∨ s = strOf "UNRANKED") :
    rank_key s = (-2, 0) := by
  unfold rank_key
  rw [if_pos h]

theorem rank_key_fst_ge {s : Str} (h : ¬(s = [] ∨ s = strOf "UNRANKED")) :
    -1 ≤ (rank_key s).1 := by
  unfold rank_key
  rw [if_neg h]
  dsimp only
  split_ifs with h'
  · exact tierIndexAux_ge _ _
  · omega

/-- `compare_ranks` is the lexicographic sign of the numeric keys. -/
theorem compare_ranks_eq_pcmp (a b : Str) :
    compare_ranks a b = pcmp (rank_key a) (rank_key b) := by
  by_cases ha : a = [] ∨ a = strOf "UNRANKED"
  · rw [rank_key_bottom ha]
    by_cases hb : b = [] ∨ b = strOf "UNRANKED"
    · rw [rank_key_bottom hb]
      unfold compare_ranks
      rw [if_pos ha]
      have : ¬(b ≠ [] ∧ b ≠ strOf "UNRANKED") := by tauto
      rw [if_neg this]
      rfl
    · have hk := rank_key_fst_ge hb
      push_neg at hb
      unfold compare_ranks
      rw [if_pos ha, if_pos hb]
      unfold pcmp
      split_ifs <;> omega
  · by_cases hb : b = [] ∨ b = strOf "UNRANKED"
    · rw [rank_key_bottom hb]
      have hk := rank_key_fst_ge ha
      unfold compare_ranks
      rw [if_neg ha, if_pos hb]
      unfold pcmp
      split_ifs <;> omega
    · unfold compare_ranks rank_key
      rw [if_neg ha, if_neg hb, if_neg ha, if_neg hb]
      rfl

theorem pcmp_antisymm (p q : Int × Int) : pcmp p q = -pcmp q p := by
  unfold pcmp
  split_ifs <;> omega

theorem pcmp_eq_one_iff {p q : Int × Int} :
    pcmp p q = 1 ↔ (q.1 < p.1 ∨ (q.1 = p.1 ∧ q.2 < p.2)) := by
  unfold pcmp
  split_ifs <;> first | omega | (simp only [false_iff, true_iff]; omega)

theorem pcmp_eq_zero_iff {p q : Int × Int} : pcmp p q = 0 ↔ p = q := by
  unfold pcmp
  rw [Prod.ext_iff]
  split_ifs <;> first | omega | (simp only [false_iff, true_iff]; omega)

theorem pcmp_nonneg_iff {p q : Int × Int} :
    0 ≤ pcmp p q ↔ (q.1 < p.1 ∨ (q.1 = p.1 ∧ q.2 ≤ p.2)) := by
  unfold pcmp
  split_ifs <;> omega

theorem pcmp_self (p : Int × Int) : pcmp p p = 0 := by
  rw [pcmp_eq_zero_iff]

theorem pcmp_nonneg_trans {p q r : Int × Int}
    (h1 : 0 ≤ pcmp p q) (h2 : 0 ≤ pcmp q r) : 0 ≤ pcmp p r := by
  rw [pcmp_nonneg_iff] at h1 h2 ⊢
  rcases h1 with h1 | ⟨h1, h1'⟩ <;> rcases h2 with h2 | ⟨h2, h2'⟩ <;> omega

-- ===========================================================================
-- C1: `compare_ranks` is a strict total preorder with bottom `"UNRANKED"`
-- ===========================================================================

/-- A formatted rank string: `"UNRANKED"` or a string with at least one
whitespace-separated token (every `"TIER"` / `"TIER DIVISION"` string is of
this form).  On anything else the source comparison would raise. -/
def FormattedRank (s : Str) : Prop :=
  s = strOf "UNRANKED" ∨ (s ≠ [] ∧ splitWs (pyUpper s) ≠ [])

/-- C1.  Over formatted rank strings, `compare_ranks` is antisymmetric
(`compare_ranks a b = -compare_ranks b a`), transitive (both in its strict
part and in its equivalence part), and `"UNRANKED"` is the unique minimum:
strictly below every other formatted rank string and comparing equal only to
itself. -/
theorem compare_ranks_strict_total_preorder :
    (∀ a b, FormattedRank a → FormattedRank b →
      compare_ranks a b = -compare_ranks b a) ∧
    (∀ a b c, FormattedRank a → FormattedRank b → FormattedRank c →
      compare_ranks a b = 1 → compare_ranks b c = 1 → compare_ranks a c = 1) ∧
    (∀ a b c, FormattedRank a → FormattedRank b → FormattedRank c →
      compare_ranks a b = 0 → compare_ranks b c = 0 → compare_ranks a c = 0) ∧
    (∀ b, FormattedRank b → b ≠ strOf "UNRANKED" →
      compare_ranks (strOf "UNRANKED") b = -1 ∧ compare_ranks b (strOf "UNRANKED") = 1) ∧
    (∀ b, FormattedRank b →
      (compare_ranks (strOf "UNRANKED") b = 0 ↔ b = strOf "UNRANKED")) := by
  have hne : ∀ b : Str, FormattedRank b → b ≠ strOf "UNRANKED" →
      ¬(b = [] ∨ b = strOf "UNRANKED") := by
    intro b hb hbu
    rcases hb with h | ⟨h1, _⟩
    · exact absurd h hbu
    · rintro (h | h)
      · exact h1 h
      · exact hbu h
  refine ⟨?_, ?_, ?_, ?_, ?_⟩
  · intro a b _ _
    rw [compare_ranks_eq_pcmp, compare_ranks_eq_pcmp]
    exact pcmp_antisymm _ _
  · intro a b c _ _ _ h1 h2
    rw [compare_ranks_eq_pcmp] at h1 h2 ⊢
    rw [pcmp_eq_one_iff] at h1 h2 ⊢
    rcases h1 with h1 | ⟨h1, h1'⟩ <;> rcases h2 with h2 | ⟨h2, h2'⟩ <;> omega
  · intro a b c _ _ _ h1 h2
    rw [compare_ranks_eq_pcmp] at h1 h2 ⊢
    rw [pcmp_eq_zero_iff] at h1 h2 ⊢
    rw [h1, h2]
  · intro b hb hbu
    have hnb := hne b hb hbu
    have hk := rank_key_fst_ge hnb
    have hu : rank_key (strOf "UNRANKED") = (-2, 0) := rank_key_bottom (Or.inr rfl)
    constructor
    · rw [compare_ranks_eq_pcmp, hu]
      unfold pcmp
      split_ifs <;> omega
    · rw [compare_ranks_eq_pcmp, hu]
      unfold pcmp
      split_ifs <;> omega
  · intro b hb
    constructor
    · intro h
      by_contra hbu
      have hnb := hne b hb hbu
      have hk := rank_key_fst_ge hnb
      rw [compare_ranks_eq_pcmp, rank_key_bottom (Or.inr rfl), pcmp_eq_zero_iff] at h
      have : (rank_key b).1 = -2 := by rw [← h]
      omega
    · intro h
      rw [h]
      decide

/-- Witness for C1 at concrete formatted rank strings. -/
theorem compare_ranks_strict_total_preorder_witness :
    compare_ranks (strOf "GOLD II") (strOf "SILVER I") =
      -compare_ranks (strOf "SILVER I") (strOf "GOLD II") ∧
    compare_ranks (strOf "UNRANKED") (strOf "MASTER") = -1 ∧
    compare_ranks (strOf "PLATINUM IV") (strOf "GOLD I") = 1 := by
  have h := compare_ranks_strict_total_preorder
  refine ⟨h.1 (strOf "GOLD II") (strOf "SILVER I") (by right; constructor <;> decide)
      (by right; constructor <;> decide), ?_, ?_⟩
  · exact (h.2.2.2.1 (strOf "MASTER") (by right; constructor <;> decide) (by decide)).1
  · exact h.2.1 (strOf "PLATINUM IV") (strOf "GOLD I") (strOf "SILVER I")
      (by right; constructor <;> decide) (by right; constructor <;> decide)
      (by right; constructor <;> decide) (by decide) (by decide)

-- ===========================================================================
-- C3: `calculate_lp` against the LP table layout
-- ===========================================================================

/-- The four division tokens in ascending base order. -/
def DIVS_ASC : List Str := [strOf "IV", strOf "III", strOf "II", strOf "I"]

theorem lookupL_LP_TABLE_none {t : Str} (h : t ∉ TIER_ORDER) :
    lookupL LP_TABLE t = none := by
  simp only [TIER_ORDER, List.mem_cons, List.not_mem_nil, or_false, not_or] at h
  obtain ⟨h1, h2, h3, h4, h5, h6, h7, h8, h9, h10⟩ := h
  rw [LP_TABLE]
  rw [lookupL, if_neg (fun he => h1 he.symm)]
  rw [lookupL, if_neg (fun he => h2 he.symm)]
  rw [lookupL, if_neg (fun he => h3 he.symm)]
  rw [lookupL, if_neg (fun he => h4 he.symm)]
  rw [lookupL, if_neg (fun he => h5 he.symm)]
  rw [lookupL, if_neg (fun he => h6 he.symm)]
  rw [lookupL, if_neg (fun he => h7 he.symm)]
  rw [lookupL, if_neg (fun he => h8 he.symm)]
  rw [lookupL, if_neg (fun he => h9 he.symm)]
  rw [lookupL, if_neg (fun he => h10 he.symm)]
  rfl

/-- C3.  `calculate_lp` realises the documented table layout: for the seven
sub-apex tiers the base is 400 per tier step plus 0/100/200/300 for the
divisions IV/III/II/I, and the result is base + league points; the three apex
tiers have fixed division-free bases 2800/3000/3300 (200 and 300 apart, above
the highest sub-apex base 2700); an empty, unranked, or unrecognized tier
yields 0. -/
theorem calculate_lp_table_spec :
    (∀ i, i < 7 → ∀ j, j < 4 → ∀ lp : Int, 0 ≤ lp →
      calculate_lp (TIER_ORDER.getD i []) (DIVS_ASC.getD j []) lp
        = 400 * (i : Int) + 100 * (j : Int) + lp) ∧
    (∀ division : Str, ∀ lp : Int, 0 ≤ lp →
      calculate_lp (strOf "MASTER") division lp = 2800 + lp ∧
      calculate_lp (strOf "GRANDMASTER") division lp = 3000 + lp ∧
      calculate_lp (strOf "CHALLENGER") division lp = 3300 + lp) ∧
    (∀ division : Str,
      calculate_lp (strOf "DIAMOND") (strOf "I") 0
        < calculate_lp (strOf "MASTER") division 0 ∧
      calculate_lp (strOf "GRANDMASTER") division 0
        - calculate_lp (strOf "MASTER") division 0 = 200 ∧
      calculate_lp (strOf "CHALLENGER") division 0
        - calculate_lp (strOf "GRANDMASTER") division 0 = 300) ∧
    (∀ tier division : Str, ∀ lp : Int, 0 ≤ lp →
      (tier = [] ∨ tier = strOf "UNRANKED" ∨ pyUpper tier ∉ TIER_ORDER) →
      calculate_lp tier division lp = 0) := by
  refine ⟨?_, ?_, ?_, ?_⟩
  · intro i hi j hj lp _
    interval_cases i <;> interval_cases j <;> rfl
  · intro division lp _
    refine ⟨?_, ?_, ?_⟩ <;>
      simp +decide [calculate_lp, pyUpper, LP_TABLE, lookupL, APEX_TIERS]
  · intro division
    refine ⟨?_, ?_, ?_⟩ <;>
      simp +decide [calculate_lp, pyUpper, LP_TABLE, lookupL, APEX_TIERS]
  · intro tier division lp _ h
    unfold calculate_lp
    rcases h with h | h | h
    · rw [if_pos (Or.inl h)]
    · rw [if_pos (Or.inr h)]
    · by_cases h0 : tier = [] ∨ tier = strOf "UNRANKED"
      · rw [if_pos h0]
      · rw [if_neg h0]
        have hap : pyUpper tier ∉ APEX_TIERS := by
          intro hx
          rcases (by simpa [APEX_TIERS] using hx :
              pyUpper tier = strOf "MASTER" ∨ pyUpper tier = strOf "GRANDMASTER" ∨
                pyUpper tier = strOf "CHALLENGER") with h' | h' | h' <;>
            · rw [h'] at h
              exact h (by decide)
        rw [if_neg hap, lookupL_LP_TABLE_none h]

/-- Witness for C3 at concrete inputs. -/
theorem calculate_lp_table_spec_witness :
    calculate_lp (TIER_ORDER.getD 3 []) (DIVS_ASC.getD 1 []) 45
      = 400 * ((3 : Nat) : Int) + 100 * ((1 : Nat) : Int) + 45 ∧
    calculate_lp (strOf "GRANDMASTER") (strOf "II") 12 = 3000 + 12 ∧
    calculate_lp (strOf "WOOD") (strOf "II") 55 = 0 := by
  have h := calculate_lp_table_spec
  exact ⟨h.1 3 (by decide) 1 (by decide) 45 (by decide),
    (h.2.1 (strOf "II") 12 (by decide)).2.1,
    h.2.2.2 (strOf "WOOD") (strOf "II") 55 (by decide) (Or.inr (Or.inr (by decide)))⟩

-- ===========================================================================
-- C10: unrecognized tiers sit between `"UNRANKED"` and the known tiers
-- ===========================================================================

/-- The division index `compare_ranks` assigns to a rank string: its second
token (default `"I"`) looked up in `DIV_ORDER` with default 0. -/
def div_index (s : Str) : Int :=
  let p := splitWs (pyUpper s)
  let d := if p.length > 1 then p.getD 1 [] else strOf "I"
  (lookupL DIV_ORDER d).getD 0

/-- Three-way sign on division indices. -/
def dcmp (d1 d2 : Int) : Int := if d1 > d2 then 1 else if d1 < d2 then -1 else 0

theorem rank_key_eq_of_tok {a t1 : Str} {r1 : List Str}
    (hna : ¬(a = [] ∨ a = strOf "UNRANKED"))
    (hs : splitWs (pyUpper a) = t1 :: r1) :
    rank_key a = (if t1 ∈ TIER_ORDER then tier_index t1 else -1, div_index a) := by
  unfold rank_key div_index
  rw [if_neg hna]
  simp only [hs, List.headD_cons]

theorem tierIndexAux_mem_nonneg {t : Str} {l : List Str} (h : t ∈ l) :
    0 ≤ tierIndexAux t l := by
  induction l with
  | nil => cases h
  | cons x xs ih =>
    by_cases hx : x = t
    · simp [tierIndexAux, hx]
    · have : t ∈ xs := by
        rcases List.mem_cons.mp h with h' | h'
        · exact absurd h'.symm hx
        · exact h'
      simp only [tierIndexAux, if_neg hx]
      have := ih this
      split_ifs <;> omega

/-- C10.  A nonempty rank string other than `"UNRANKED"` whose (uppercased)
tier token is not one of the ten known tiers compares strictly above
`"UNRANKED"`, strictly below every rank string with a known tier token, and
against another unrecognized-tier string by division order alone. -/
theorem compare_ranks_unknown_tier :
    ∀ a t1 : Str, ∀ r1 : List Str, a ≠ [] → a ≠ strOf "UNRANKED" →
      splitWs (pyUpper a) = t1 :: r1 → t1 ∉ TIER_ORDER →
      (compare_ranks a (strOf "UNRANKED") = 1 ∧
       compare_ranks (strOf "UNRANKED") a = -1) ∧
      (∀ b t2 : Str, ∀ r2 : List Str, b ≠ [] → b ≠ strOf "UNRANKED" →
        splitWs (pyUpper b) = t2 :: r2 → t2 ∈ TIER_ORDER →
        compare_ranks a b = -1 ∧ compare_ranks b a = 1) ∧
      (∀ b t2 : Str, ∀ r2 : List Str, b ≠ [] → b ≠ strOf "UNRANKED" →
        splitWs (pyUpper b) = t2 :: r2 → t2 ∉ TIER_ORDER →
        compare_ranks a b = dcmp (div_index a) (div_index b)) := by
  intro a t1 r1 ha1 ha2 hs1 ht1
  have hna : ¬(a = [] ∨ a = strOf "UNRANKED") := by tauto
  have hka : rank_key a = (-1, div_index a) := by
    rw [rank_key_eq_of_tok hna hs1, if_neg ht1]
  have hu : rank_key (strOf "UNRANKED") = (-2, 0) := rank_key_bottom (Or.inr rfl)
  refine ⟨?_, ?_, ?_⟩
  · constructor
    · rw [compare_ranks_eq_pcmp, hka, hu]
      unfold pcmp
      norm_num
    · rw [compare_ranks_eq_pcmp, hka, hu]
      unfold pcmp
      norm_num
  · intro b t2 r2 hb1 hb2 hs2 ht2
    have hnb : ¬(b = [] ∨ b = strOf "UNRANKED") := by tauto
    have hkb : rank_key b = (tier_index t2, div_index b) := by
      rw [rank_key_eq_of_tok hnb hs2, if_pos ht2]
    have hge : 0 ≤ tier_index t2 := tierIndexAux_mem_nonneg ht2
    constructor
    · rw [compare_ranks_eq_pcmp, hka, hkb]
      unfold pcmp
      split_ifs <;> omega
    · rw [compare_ranks_eq_pcmp, hka, hkb]
      unfold pcmp
      split_ifs <;> omega
  · intro b t2 r2 hb1 hb2 hs2 ht2
    have hnb : ¬(b = [] ∨ b = strOf "UNRANKED") := by tauto
    have hkb : rank_key b = (-1, div_index b) := by
      rw [rank_key_eq_of_tok hnb hs2, if_neg ht2]
    rw [compare_ranks_eq_pcmp, hka, hkb]
    unfold pcmp dcmp
    norm_num

/-- Witness for C10 at concrete strings with the unrecognized tier `ZZZ`. -/
theorem compare_ranks_unknown_tier_witness :
    (compare_ranks (strOf "ZZZ II") (strOf "UNRANKED") = 1 ∧
     compare_ranks (strOf "UNRANKED") (strOf "ZZZ II") = -1) ∧
    (compare_ranks (strOf "ZZZ II") (strOf "IRON IV") = -1 ∧
     compare_ranks (strOf "IRON IV") (strOf "ZZZ II") = 1) ∧
    compare_ranks (strOf "ZZZ II") (strOf "YYY III")
      = dcmp (div_index (strOf "ZZZ II")) (div_index (strOf "YYY III")) := by
  have h := compare_ranks_unknown_tier (strOf "ZZZ II") (strOf "ZZZ")
    [strOf "II"] (by decide) (by decide) (by decide) (by decide)
  exact ⟨h.1,
    h.2.1 (strOf "IRON IV") (strOf "IRON") [strOf "IV"]
      (by decide) (by decide) (by decide) (by decide),
    h.2.2 (strOf "YYY III") (strOf "YYY") [strOf "III"]
      (by decide) (by decide) (by decide) (by decide)⟩

-- ===========================================================================
-- C2: the peak rank is the maximum of all candidates
-- ===========================================================================

/-- The formatted rank of one extracted (tier, division-number) pair. -/
def fmtOf (p : Str × Nat) : Str := format_rank p.1 (div_roman p.2)

theorem format_rank_ne_nil (tier d : Str) : format_rank tier d ≠ [] := by
  simp only [format_rank]
  split_ifs with h1 h2
  · decide
  · rcases (by simpa [APEX_TIERS] using h2 :
        pyUpper tier = strOf "MASTER" ∨ pyUpper tier = strOf "GRANDMASTER" ∨
          pyUpper tier = strOf "CHALLENGER") with h | h | h <;> rw [h] <;> decide
  · simp

theorem fmtOf_ne_nil (p : Str × Nat) : fmtOf p ≠ [] := format_rank_ne_nil _ _

theorem peakStep_cases (best : Str) (p : Str × Nat) :
    peakStep best p = fmtOf p ∨ peakStep best p = best := by
  simp only [peakStep, fmtOf]
  split_ifs <;> tauto

theorem peakStep_ge (best : Str) (p : Str × Nat) :
    0 ≤ pcmp (rank_key (peakStep best p)) (rank_key best) := by
  simp only [peakStep]
  split_ifs with h
  · rw [compare_ranks_eq_pcmp] at h
    omega
  · rw [pcmp_self]

theorem peakStep_ge_cand (best : Str) (p : Str × Nat) :
    0 ≤ pcmp (rank_key (peakStep best p)) (rank_key (fmtOf p)) := by
  simp only [peakStep, fmtOf]
  split_ifs with h
  · rw [pcmp_self]
  · rw [compare_ranks_eq_pcmp] at h
    rw [pcmp_antisymm]
    omega

theorem foldl_peakStep_ge_init (l : List (Str × Nat)) :
    ∀ init : Str, 0 ≤ pcmp (rank_key (l.foldl peakStep init)) (rank_key init) := by
  induction l with
  | nil => intro init; rw [List.foldl_nil, pcmp_self]
  | cons p rest ih =>
    intro init
    rw [List.foldl_cons]
    exact pcmp_nonneg_trans (ih (peakStep init p)) (peakStep_ge init p)

theorem foldl_peakStep_mem (l : List (Str × Nat)) :
    ∀ init : Str, l.foldl peakStep init = init ∨ l.foldl peakStep init ∈ l.map fmtOf := by
  induction l with
  | nil => intro init; left; rfl
  | cons p rest ih =>
    intro init
    rw [List.foldl_cons, List.map_cons]
    rcases ih (peakStep init p) with h | h
    · rw [h]
      rcases peakStep_cases init p with h' | h'
      · right; rw [h']; exact List.mem_cons_self _ _
      · left; exact h'
    · right; exact List.mem_cons_of_mem _ h

theorem foldl_peakStep_ge_all (l : List (Str × Nat)) :
    ∀ init : Str, ∀ c ∈ l.map fmtOf,
      0 ≤ pcmp (rank_key (l.foldl peakStep init)) (rank_key c) := by
  induction l with
  | nil => intro init c hc; cases hc
  | cons p rest ih =>
    intro init c hc
    rw [List.foldl_cons]
    rw [List.map_cons] at hc
    rcases List.mem_cons.mp hc with h | h
    · rw [h]
      exact pcmp_nonneg_trans (foldl_peakStep_ge_init rest (peakStep init p))
        (peakStep_ge_cand init p)
    · exact ih (peakStep init p) c h

/-- If `"UNRANKED"` dominates a rank string under the key comparison, that
string is falsy or `"UNRANKED"` itself. -/
theorem bottom_dominates {c : Str}
    (h : 0 ≤ pcmp (rank_key (strOf "UNRANKED")) (rank_key c)) :
    c = [] ∨ c = strOf "UNRANKED" := by
  by_contra h'
  have hge := rank_key_fst_ge h'
  rw [rank_key_bottom (Or.inr rfl), pcmp_nonneg_iff] at h
  dsimp only at h
  omega

/-- The candidate set of the peak computation: the extracted current rank
when it is not `"UNRANKED"`, the top-tier candidates, and the
historical-season candidates. -/
def peak_candidates (text : Str) : List Str :=
  (if (parse_opgg_response text).current_rank ≠ strOf "UNRANKED"
    then [(parse_opgg_response text).current_rank] else [])
  ++ (findallTop (cleanText text)).map fmtOf
  ++ (findallPrev (cleanText text)).map fmtOf

/-- Text of the worked example of the claim: current SILVER II, historical
candidates GOLD III and SILVER I. -/
def exC2Text : Str :=
  strOf "LeagueStat(\"SOLORANKED\",TierInfo(\"SILVER\",2,10,null))PreviousSeason(30,TierInfo1(\"GOLD\",3))PreviousSeason(31,TierInfo1(\"SILVER\",1))"

set_option maxRecDepth 4000 in
/-- C2.  For every response text the returned peak rank dominates every
candidate under `compare_ranks`, is itself one of the candidates when any
exist, and is `"UNRANKED"` when there are none; in particular current
SILVER II with historical GOLD III and SILVER I yields peak GOLD III. -/
theorem parse_peak_is_max :
    (∀ text : Str,
      (∀ c ∈ peak_candidates text,
        0 ≤ compare_ranks (parse_opgg_response text).peak_rank c) ∧
      (peak_candidates text ≠ [] →
        (parse_opgg_response text).peak_rank ∈ peak_candidates text) ∧
      (peak_candidates text = [] →
        (parse_opgg_response text).peak_rank = strOf "UNRANKED")) ∧
    (parse_opgg_response exC2Text).current_rank = strOf "SILVER II" ∧
    (parse_opgg_response exC2Text).peak_rank = strOf "GOLD III" := by
  refine ⟨?_, by decide, by decide⟩
  intro text
  have hcr : (parse_opgg_response text).current_rank = (extract_current (cleanText text)).1 := rfl
  have hpeak : (parse_opgg_response text).peak_rank
      = (findallPrev (cleanText text)).foldl peakStep
          ((findallTop (cleanText text)).foldl peakStep
            (if (extract_current (cleanText text)).1 ≠ strOf "UNRANKED"
              then (extract_current (cleanText text)).1 else strOf "UNRANKED")) := rfl
  have hcs : peak_candidates text
      = (if (extract_current (cleanText text)).1 ≠ strOf "UNRANKED"
          then [(extract_current (cleanText text)).1] else [])
        ++ (findallTop (cleanText text)).map fmtOf
        ++ (findallPrev (cleanText text)).map fmtOf := rfl
  have hcur_ne : (extract_current (cleanText text)).1 = strOf "UNRANKED" ∨
      (extract_current (cleanText text)).1 ≠ [] := by
    unfold extract_current
    cases hsc : searchCurrent (cleanText text) with
    | none => left; rfl
    | some r =>
      obtain ⟨tier, dv, lp⟩ := r
      right
      exact format_rank_ne_nil _ _
  -- abbreviations
  generalize hC : (extract_current (cleanText text)).1 = cur at *
  generalize hT : findallTop (cleanText text) = top at *
  generalize hP : findallPrev (cleanText text) = prev at *
  have hb1ge : ∀ init : Str,
      0 ≤ pcmp (rank_key (prev.foldl peakStep (top.foldl peakStep init))) (rank_key init) :=
    fun init => pcmp_nonneg_trans (foldl_peakStep_ge_init prev _) (foldl_peakStep_ge_init top init)
  -- dominance over every candidate
  have hdom : ∀ c ∈ peak_candidates text,
      0 ≤ pcmp (rank_key ((parse_opgg_response text).peak_rank)) (rank_key c) := by
    intro c hc
    rw [hcs] at hc
    rw [hpeak]
    rcases List.mem_append.mp hc with hc' | hc'
    · rcases List.mem_append.mp hc' with hc'' | hc''
      · -- c is the current rank
        by_cases hcu : cur ≠ strOf "UNRANKED"
        · rw [if_pos hcu] at hc''
          have hceq : c = cur := List.mem_singleton.mp hc''
          rw [hceq, if_pos hcu]
          exact hb1ge cur
        · rw [if_neg hcu] at hc''
          cases hc''
      · -- c is a top-tier candidate
        exact pcmp_nonneg_trans (foldl_peakStep_ge_init prev _)
          (foldl_peakStep_ge_all top _ c hc'')
    · -- c is a historical candidate
      exact foldl_peakStep_ge_all prev _ c hc'
  refine ⟨?_, ?_, ?_⟩
  · intro c hc
    rw [compare_ranks_eq_pcmp]
    exact hdom c hc
  · -- membership when candidates exist
    intro hne
    rcases foldl_peakStep_mem prev (top.foldl peakStep
        (if cur ≠ strOf "UNRANKED" then cur else strOf "UNRANKED")) with h2 | h2
    · rcases foldl_peakStep_mem top
          (if cur ≠ strOf "UNRANKED" then cur else strOf "UNRANKED") with h1 | h1
      · -- the peak is the initial best
        by_cases hcu : cur ≠ strOf "UNRANKED"
        · -- initial best is the current rank, itself a candidate
          rw [hcs]
          rw [hpeak, h2, h1, if_pos hcu]
          refine List.mem_append.mpr (Or.inl (List.mem_append.mpr (Or.inl ?_)))
          rw [if_pos hcu]
          exact List.mem_singleton.mpr rfl
        · -- initial best is UNRANKED: candidates must all be UNRANKED
          have hpU : (parse_opgg_response text).peak_rank = strOf "UNRANKED" := by
            rw [hpeak, h2, h1, if_neg hcu]
          obtain ⟨c0, hc0⟩ := List.exists_mem_of_ne_nil _ hne
          have hdc := hdom c0 hc0
          rw [hpU] at hdc
          have hc0b := bottom_dominates hdc
          have hc0ne : c0 ≠ [] := by
            rw [hcs] at hc0
            rcases List.mem_append.mp hc0 with hc' | hc'
            · rcases List.mem_append.mp hc' with hc'' | hc''
              · rw [if_neg hcu] at hc''
                cases hc''
              · obtain ⟨q, _, hq⟩ := List.mem_map.mp hc''
                rw [← hq]
                exact fmtOf_ne_nil q
            · obtain ⟨q, _, hq⟩ := List.mem_map.mp hc'
              rw [← hq]
              exact fmtOf_ne_nil q
          rcases hc0b with h | h
          · exact absurd h hc0ne
          · rw [hpU, ← h]
            exact hc0
      · -- the peak is a top-tier candidate
        rw [hcs]
        rw [hpeak, h2]
        exact List.mem_append.mpr (Or.inl (List.mem_append.mpr (Or.inr h1)))
    · -- the peak is a historical candidate
      rw [hcs]
      rw [hpeak]
      exact List.mem_append.mpr (Or.inr h2)
  · -- empty candidate set
    intro hemp
    rw [hcs] at hemp
    obtain ⟨h12, h3⟩ := List.append_eq_nil.mp hemp
    obtain ⟨h1, h2⟩ := List.append_eq_nil.mp h12
    have hcu : ¬ (cur ≠ strOf "UNRANKED") := by
      intro hcu'
      rw [if_pos hcu'] at h1
      cases h1
    rw [hpeak, List.map_eq_nil_iff.mp h2, List.map_eq_nil_iff.mp h3,
      List.foldl_nil, List.foldl_nil, if_neg hcu]

set_option maxRecDepth 4000 in
/-- Witness for C2: on the worked example the candidate set is nonempty, the
peak is one of the candidates, and it dominates the current rank. -/
theorem parse_peak_is_max_witness :
    peak_candidates exC2Text ≠ [] ∧
    (parse_opgg_response exC2Text).peak_rank ∈ peak_candidates exC2Text ∧
    0 ≤ compare_ranks (parse_opgg_response exC2Text).peak_rank (strOf "SILVER II") := by
  have h := parse_peak_is_max.1 exC2Text
  exact ⟨by decide, h.2.1 (by decide), h.1 (strOf "SILVER II") (by decide)⟩

-- ===========================================================================
-- C8: defaults when no current-rank pattern matches
-- ===========================================================================

/-- A response text carrying only a historical-season record. -/
def exC8Text : Str := strOf "PreviousSeason(31,TierInfo1(\"SILVER\",3))"

/-- C8.  When the current-rank pattern does not match anywhere in the cleaned
text, the parser returns currentRank `"UNRANKED"` and 0 league points, while
the peak may still be concrete (witnessed by a text with only a
historical-season record). -/
theorem parse_no_current_defaults :
    (∀ text : Str, searchCurrent (cleanText text) = none →
      (parse_opgg_response text).current_rank = strOf "UNRANKED" ∧
      (parse_opgg_response text).current_lp = 0) ∧
    (∃ t : Str, searchCurrent (cleanText t) = none ∧
      (parse_opgg_response t).peak_rank ≠ strOf "UNRANKED") := by
  constructor
  · intro text h
    have h1 : extract_current (cleanText text) = (strOf "UNRANKED", 0) := by
      unfold extract_current
      rw [h]
    constructor
    · show (extract_current (cleanText text)).1 = strOf "UNRANKED"
      rw [h1]
    · show (extract_current (cleanText text)).2 = 0
      rw [h1]
  · exact ⟨exC8Text, by decide, by decide⟩

/-- Witness for C8 on the historical-only text. -/
theorem parse_no_current_defaults_witness :
    searchCurrent (cleanText exC8Text) = none ∧
    (parse_opgg_response exC8Text).current_rank = strOf "UNRANKED" ∧
    (parse_opgg_response exC8Text).current_lp = 0 ∧
    (parse_opgg_response exC8Text).peak_rank = strOf "SILVER III" := by
  have h := parse_no_current_defaults.1 exC8Text (by decide)
  exact ⟨by decide, h.1, h.2, by decide⟩

-- ===========================================================================
-- C9: shape of formatter and parser outputs
-- ===========================================================================

theorem munch1_spec {p : Char → Bool} {s run rest : Str}
    (h : munch1 p s = some (run, rest)) : run ≠ [] ∧ ∀ c ∈ run, p c = true := by
  unfold munch1 at h
  split_ifs at h with h0
  · simp only [Option.some.injEq, Prod.mk.injEq] at h
    obtain ⟨h1, _⟩ := h
    subst h1
    exact ⟨h0, fun c hc => List.mem_takeWhile_imp hc⟩

theorem matchCurrentAt_tier {s tier : Str} {dv lp : Nat}
    (h : matchCurrentAt s = some (tier, dv, lp)) :
    tier ≠ [] ∧ ∀ c ∈ tier, isUpperAZ c = true := by
  unfold matchCurrentAt at h
  simp only [bind, Option.bind_eq_some, Option.some.injEq, Prod.mk.injEq] at h
  obtain ⟨r1, h1, ⟨tw, r2⟩, hm, r3, h3, ⟨ds, r4⟩, h4, r5, h5, ⟨ls, r6⟩, h6, heq⟩ := h
  obtain ⟨he1, he2, he3⟩ := heq
  subst he1
  exact munch1_spec hm

theorem matchTopAt_tier {s tier : Str} {dv : Nat} {rest : Str}
    (h : matchTopAt s = some (tier, dv, rest)) :
    tier ≠ [] ∧ ∀ c ∈ tier, isUpperAZ c = true := by
  unfold matchTopAt at h
  simp only [bind, Option.bind_eq_some, Option.some.injEq, Prod.mk.injEq] at h
  obtain ⟨r1, h1, ⟨w, r2⟩, hw, r3, h3, ⟨tw, r4⟩, hm, r5, h5, ⟨ds, r6⟩, h6, r7, h7, heq⟩ := h
  obtain ⟨he1, he2, he3⟩ := heq
  subst he1
  exact munch1_spec hm

theorem matchPrevAt_tier {s tier : Str} {dv : Nat} {rest : Str}
    (h : matchPrevAt s = some (tier, dv, rest)) :
    tier ≠ [] ∧ ∀ c ∈ tier, isUpperAZ c = true := by
  unfold matchPrevAt at h
  simp only [bind, Option.bind_eq_some, Option.some.injEq, Prod.mk.injEq] at h
  obtain ⟨r1, h1, ⟨w, r2⟩, hw, r3, h3, r5, h5, ⟨tw, r6⟩, hm, r7, h7, ⟨ds, r8⟩, h8, heq⟩ := h
  obtain ⟨he1, he2, he3⟩ := heq
  subst he1
  exact munch1_spec hm

theorem searchCurrent_tier {s tier : Str} {dv lp : Nat}
    (h : searchCurrent s = some (tier, dv, lp)) :
    tier ≠ [] ∧ ∀ c ∈ tier, isUpperAZ c = true := by
  induction s with
  | nil => cases h
  | cons c cs ih =>
    unfold searchCurrent at h
    cases hm : matchCurrentAt (c :: cs) with
    | none =>
      rw [hm] at h
      exact ih h
    | some r =>
      rw [hm] at h
      obtain ⟨t', dv', lp'⟩ := r
      simp only [Option.some.injEq, Prod.mk.injEq] at h
      obtain ⟨he1, _, _⟩ := h
      subst he1
      exact matchCurrentAt_tier hm

theorem findallAux_tier {matchAt : Str → Option (Str × Nat × Str)}
    (hM : ∀ s t : Str, ∀ d : Nat, ∀ rest : Str, matchAt s = some (t, d, rest) →
      t ≠ [] ∧ ∀ c ∈ t, isUpperAZ c = true) :
    ∀ (n : Nat) (s : Str), ∀ td ∈ findallAux matchAt n s,
      td.1 ≠ [] ∧ ∀ c ∈ td.1, isUpperAZ c = true := by
  intro n
  induction n with
  | zero =>
    intro s td htd
    simp only [findallAux] at htd
    cases htd
  | succ m ih =>
    intro s td htd
    cases s with
    | nil =>
      simp only [findallAux] at htd
      cases htd
    | cons c cs =>
      rw [findallAux] at htd
      cases hm : matchAt (c :: cs) with
      | none =>
        rw [hm] at htd
        exact ih cs td htd
      | some r =>
        obtain ⟨t, d, rest⟩ := r
        rw [hm] at htd
        rcases List.mem_cons.mp htd with h | h
        · rw [h]
          exact hM _ _ _ _ hm
        · exact ih rest td h

/-- The four division tokens, highest first. -/
def DIVS : List Str := [strOf "I", strOf "II", strOf "III", strOf "IV"]

theorem div_roman_mem (n : Nat) : div_roman n ∈ DIVS := by
  unfold div_roman
  split_ifs <;> decide

/-- The shape the claim asserts, written from the claim's words: `"UNRANKED"`,
a bare apex name, or one of the seven known sub-apex tiers followed by one
division among I/II/III/IV. -/
def shape_claimed (s : Str) : Bool :=
  s = strOf "UNRANKED" || s ∈ APEX_TIERS ||
  (TIER_ORDER.take 7).any fun t => DIVS.any fun d => s = t ++ ' ' :: d

/-- The shape the code guarantees: `"UNRANKED"`, a bare apex name, or a
nonempty all-uppercase tier token that is not an apex name followed by
exactly one division among I/II/III/IV.  (The tier token need not be one of
the ten known tiers.) -/
def shape_ok (s : Str) : Prop :=
  s = strOf "UNRANKED" ∨ s ∈ APEX_TIERS ∨
  ∃ t d : Str, t ≠ [] ∧ (∀ c ∈ t, isUpperAZ c = true) ∧ t ∉ APEX_TIERS ∧
    d ∈ DIVS ∧ s = t ++ ' ' :: d

theorem format_rank_shape {tier : Str} (d : Str)
    (ht : ∀ c ∈ tier, isAsciiLetter c = true) (hd : d ∈ DIVS) :
    shape_ok (format_rank tier d) := by
  simp only [format_rank]
  split_ifs with h1 h2
  · left; rfl
  · right; left; exact h2
  · right; right
    refine ⟨pyUpper tier, d, ?_, ?_, h2, hd, rfl⟩
    · have : tier ≠ [] := fun he => h1 (Or.inl he)
      simpa [pyUpper]
    · intro c hc
      obtain ⟨c0, hc0, hc0e⟩ := List.mem_map.mp hc
      rw [← hc0e]
      exact pyUpperChar_letter (ht c0 hc0)

/-- A response text whose current-rank record carries the unknown tier
`ZZZ`. -/
def exC9Text : Str := strOf "LeagueStat(\"SOLORANKED\",TierInfo(\"ZZZ\",1,5,null))"

/-- Counterexample to C9 as stated: the parser emits the current rank
`"ZZZ I"`, whose tier token is not one of the ten known tiers, so the
emitted string is not of the claimed shape. -/
theorem parse_shape_counterexample :
    (parse_opgg_response exC9Text).current_rank = strOf "ZZZ I" ∧
    shape_claimed ((parse_opgg_response exC9Text).current_rank) = false := by
  constructor <;> decide

/-- C9 (amended).  Formatter outputs on letter-only tier names and divisions
in I/II/III/IV, and every current and peak rank emitted by the parser, are
`"UNRANKED"`, a bare apex name, or an uppercase tier token (possibly outside
the ten known tiers) followed by exactly one division in I/II/III/IV. -/
theorem rank_shape_invariant :
    (∀ tier d : Str, (∀ c ∈ tier, isAsciiLetter c = true) → d ∈ DIVS →
      shape_ok (format_rank tier d)) ∧
    (∀ text : Str, shape_ok ((parse_opgg_response text).current_rank) ∧
      shape_ok ((parse_opgg_response text).peak_rank)) := by
  constructor
  · intro tier d ht hd
    exact format_rank_shape d ht hd
  · intro text
    have hUp : ∀ t : Str, (∀ c ∈ t, isUpperAZ c = true) → ∀ c ∈ t, isAsciiLetter c = true := by
      intro t h c hc
      unfold isAsciiLetter
      rw [h c hc, Bool.true_or]
    have hcur : shape_ok ((extract_current (cleanText text)).1) := by
      unfold extract_current
      cases hsc : searchCurrent (cleanText text) with
      | none => left; rfl
      | some r =>
        obtain ⟨tier, dv, lp⟩ := r
        obtain ⟨-, hup⟩ := searchCurrent_tier hsc
        exact format_rank_shape _ (hUp _ hup) (div_roman_mem dv)
      -- note: in the branches the match is already reduced
    have hfmtTop : ∀ c ∈ (findallTop (cleanText text)).map fmtOf, shape_ok c := by
      intro c hc
      obtain ⟨q, hq, hqe⟩ := List.mem_map.mp hc
      obtain ⟨-, hup⟩ := (findallAux_tier (fun s t d rest h => matchTopAt_tier h)) _ _ q hq
      rw [← hqe]
      exact format_rank_shape _ (hUp _ hup) (div_roman_mem q.2)
    have hfmtPrev : ∀ c ∈ (findallPrev (cleanText text)).map fmtOf, shape_ok c := by
      intro c hc
      obtain ⟨q, hq, hqe⟩ := List.mem_map.mp hc
      obtain ⟨-, hup⟩ := (findallAux_tier (fun s t d rest h => matchPrevAt_tier h)) _ _ q hq
      rw [← hqe]
      exact format_rank_shape _ (hUp _ hup) (div_roman_mem q.2)
    refine ⟨hcur, ?_⟩
    have hpeak : (parse_opgg_response text).peak_rank
        = (findallPrev (cleanText text)).foldl peakStep
            ((findallTop (cleanText text)).foldl peakStep
              (if (extract_current (cleanText text)).1 ≠ strOf "UNRANKED"
                then (extract_current (cleanText text)).1 else strOf "UNRANKED")) := rfl
    rw [hpeak]
    have hbest0 : shape_ok (if (extract_current (cleanText text)).1 ≠ strOf "UNRANKED"
        then (extract_current (cleanText text)).1 else strOf "UNRANKED") := by
      split_ifs
      · exact hcur
      · left; rfl
    rcases foldl_peakStep_mem (findallPrev (cleanText text)) _ with h2 | h2
    · rw [h2]
      rcases foldl_peakStep_mem (findallTop (cleanText text)) _ with h1 | h1
      · rw [h1]
        exact hbest0
      · exact hfmtTop _ h1
    · exact hfmtPrev _ h2

/-- Witness for C9's amended theorem at a concrete tier and division. -/
theorem rank_shape_invariant_witness :
    shape_ok (format_rank (strOf "gold") (strOf "II")) := by
  exact rank_shape_invariant.1 (strOf "gold") (strOf "II") (by decide) (by decide)


-- ===========================================================================
-- C4: separator priority of `parse_riot_id`
-- ===========================================================================

theorem hasSub_iff_occurs {needle s : Str} (hn : needle ≠ []) :
    hasSub needle s = true ↔ needle <:+: s := by
  induction s with
  | nil =>
    rw [List.infix_nil]
    unfold hasSub
    simp [hn]
  | cons c cs ih =>
    unfold hasSub
    rw [Bool.or_eq_true, List.infix_cons_iff, ih, List.isPrefixOf_iff_prefix]

theorem pyStrip_within (s : Str) : pyStrip s <:+: s := by
  unfold pyStrip
  have h1 : s.dropWhile isPySpace <:+ s := List.dropWhile_suffix isPySpace
  have h0 : ((s.dropWhile isPySpace).reverse).dropWhile isPySpace
      <:+ (s.dropWhile isPySpace).reverse := List.dropWhile_suffix isPySpace
  have h2 : ((s.dropWhile isPySpace).reverse.dropWhile isPySpace).reverse
      <+: s.dropWhile isPySpace := by
    rw [← List.reverse_suffix]
    simpa using h0
  exact h2.isInfix.trans h1.isInfix

theorem mem_of_mem_pyStrip {a : Char} {s : Str} (h : a ∈ pyStrip s) : a ∈ s :=
  (pyStrip_within s).sublist.mem h

theorem parenHint_pre_starts {s pre content : Str}
    (h : parenHint s = some (pre, content)) : pre <+: s := by
  unfold parenHint at h
  split at h
  case _ c rest hr =>
    split_ifs at h with hc
    dsimp only at h
    split at h
    case _ c0 content' hz =>
      split_ifs at h with hcont
      simp only [Option.some.injEq, Prod.mk.injEq] at h
      obtain ⟨hpre, -⟩ := h
      have hs : s = rest.reverse ++ [')'] := by
        have := congrArg List.reverse hr
        rw [hc] at this
        simpa using this
      have htp : rest.takeWhile (fun x => x ≠ ')') <+: rest := List.takeWhile_prefix _
      have hrest : rest.takeWhile (fun x => x ≠ ')')
          ++ rest.drop (rest.takeWhile (fun x => x ≠ ')')).length = rest := by
        nth_rewrite 1 [List.prefix_iff_eq_take.mp htp]
        exact List.take_append_drop _ _
      have hrrev : rest.reverse
          = (rest.drop (rest.takeWhile (fun x => x ≠ ')')).length).reverse
            ++ (rest.takeWhile (fun x => x ≠ ')')).reverse := by
        rw [← List.reverse_append, hrest]
      rw [hs, hrrev, ← hpre, List.append_assoc]
      exact (List.prefix_append_right_inj _).mpr
        ((List.takeWhile_prefix _).trans (List.prefix_append _ _))
    case _ hz => cases h
  case _ hr => cases h

theorem splitFirst_none_iff {sep : Str} (hn : sep ≠ []) {s : Str} :
    splitFirst sep s = none ↔ hasSub sep s = false := by
  induction s with
  | nil =>
    constructor
    · intro _
      unfold hasSub
      simp [hn]
    · intro _
      rfl
  | cons c cs ih =>
    unfold splitFirst hasSub
    rw [Bool.or_eq_false_iff]
    split_ifs with hp
    · constructor
      · intro hx
        cases hx
      · rintro ⟨h1, -⟩
        rw [hp] at h1
        cases h1
    · have hpf : sep.isPrefixOf (c :: cs) = false := by
        cases hv : sep.isPrefixOf (c :: cs)
        · rfl
        · exact absurd hv hp
      rw [Option.map_eq_none', ih, hpf]
      simp

theorem splitFirst_single_not_mem {c : Char} {s l r : Str}
    (h : splitFirst [c] s = some (l, r)) : c ∉ l := by
  induction s generalizing l r with
  | nil => cases h
  | cons d ds ih =>
    unfold splitFirst at h
    split_ifs at h with hp
    · simp only [Option.some.injEq, Prod.mk.injEq] at h
      obtain ⟨hl, -⟩ := h
      rw [← hl]
      simp
    · cases hrec : splitFirst [c] ds with
      | none => rw [hrec] at h; cases h
      | some p =>
        obtain ⟨l', r'⟩ := p
        rw [hrec] at h
        simp only [Option.map_some', Option.some.injEq, Prod.mk.injEq] at h
        obtain ⟨hl, -⟩ := h
        rw [← hl]
        intro hmem
        rcases List.mem_cons.mp hmem with hcd | hcd
        · subst hcd
          exact hp (List.isPrefixOf_iff_prefix.mpr ⟨ds, rfl⟩)
        · exact ih hrec hcd

theorem not_mem_of_hasSub_single {c : Char} {s : Str}
    (h : hasSub [c] s = false) : c ∉ s := by
  induction s with
  | nil => simp
  | cons d ds ih =>
    unfold hasSub at h
    rw [Bool.or_eq_false_iff] at h
    obtain ⟨h1, h2⟩ := h
    intro hmem
    rcases List.mem_cons.mp hmem with hcd | hcd
    · subst hcd
      have hpt : [c].isPrefixOf (c :: ds) = true := List.isPrefixOf_iff_prefix.mpr ⟨ds, rfl⟩
      rw [hpt] at h1
      cases h1
    · exact ih h2 hcd

/-- Counterexample to C4 as stated: in `"a#b #c"` the first separator
occurrence is the bare `#` after `a`, yet the code splits at the later
`" #"`, leaving a `#` inside the name part. -/
theorem parse_riot_id_counterexample :
    parse_riot_id (strOf "a#b #c") = (strOf "a#b", strOf "c", []) ∧
    '#' ∈ (parse_riot_id (strOf "a#b #c")).1 ∧ '#' ∈ strOf "a#b #c" := by
  refine ⟨by decide, by decide, by decide⟩

/-- C4 (amended).  `parse_riot_id` splits at the first occurrence of `" #"`
when one is present, otherwise at the first `"#"`; hence whenever the input
contains no `" #"`, the name part contains no `#`.  The spec round-trip
example also holds. -/
theorem parse_riot_id_split :
    (∀ rid : Str, hasSub (strOf " #") rid = false →
      '#' ∉ (parse_riot_id rid).1) ∧
    parse_riot_id (strOf "Faker#KR1 (kr)") = (strOf "Faker", strOf "KR1", strOf "kr") := by
  refine ⟨?_, by decide⟩
  intro rid h
  have hcore : ∃ core hint : Str, (match parenHint (pyStrip rid) with
      | some (pre, content) => (pyStrip pre, pyLower (pyStrip content))
      | none => (pyStrip rid, ([] : Str))) = (core, hint) ∧ core <:+: rid := by
    cases hp : parenHint (pyStrip rid) with
    | none => exact ⟨pyStrip rid, [], rfl, pyStrip_within rid⟩
    | some pr =>
      obtain ⟨pre, content⟩ := pr
      refine ⟨pyStrip pre, pyLower (pyStrip content), rfl, ?_⟩
      exact (pyStrip_within pre).trans
        ((parenHint_pre_starts hp).isInfix.trans (pyStrip_within rid))
  obtain ⟨core, hint, hcm, hinf⟩ := hcore
  have hns : hasSub (strOf " #") core = false := by
    by_contra hx
    have hxt : hasSub (strOf " #") core = true := by
      cases hv : hasSub (strOf " #") core
      · exact absurd hv hx
      · rfl
    have hne : strOf " #" ≠ [] := by decide
    have hi := (hasSub_iff_occurs hne).mp hxt
    have ht := (hasSub_iff_occurs hne).mpr (hi.trans hinf)
    rw [h] at ht
    cases ht
  show '#' ∉ (parse_riot_id rid).1
  unfold parse_riot_id
  dsimp only
  rw [hcm]
  dsimp only
  rw [(splitFirst_none_iff (by decide)).mpr hns]
  cases h2 : splitFirst (strOf "#") core with
  | some p =>
    obtain ⟨l, r⟩ := p
    intro hmem
    exact splitFirst_single_not_mem h2 (mem_of_mem_pyStrip hmem)
  | none =>
    intro hmem
    have hne : strOf "#" ≠ [] := by decide
    have hnh : hasSub (strOf "#") core = false := (splitFirst_none_iff hne).mp h2
    exact not_mem_of_hasSub_single hnh hmem

/-- Witness for C4's amended theorem: an input with a bare `#` and no
`" #"`. -/
theorem parse_riot_id_split_witness :
    hasSub (strOf " #") (strOf "Faker#KR1") = false ∧
    '#' ∉ (parse_riot_id (strOf "Faker#KR1")).1 :=
  ⟨by decide, parse_riot_id_split.1 (strOf "Faker#KR1") (by decide)⟩

-- ===========================================================================
-- C5: the candidate-region list
-- ===========================================================================

theorem mem_dedupAux {x : Str} : ∀ (l : List Str) (seen : List Str),
    x ∈ dedupAux seen l ↔ x ∈ l ∧ x ∉ seen := by
  intro l
  induction l with
  | nil => intro seen; simp [dedupAux]
  | cons y ys ih =>
    intro seen
    unfold dedupAux
    split_ifs with hy
    · rw [ih]
      constructor
      · rintro ⟨h1, h2⟩
        exact ⟨List.mem_cons_of_mem _ h1, h2⟩
      · rintro ⟨h1, h2⟩
        rcases List.mem_cons.mp h1 with h | h
        · subst h
          exact absurd hy h2
        · exact ⟨h, h2⟩
    · rw [List.mem_cons, ih, List.mem_cons]
      by_cases hxy : x = y
      · subst hxy
        simp [hy]
      · simp [hxy]

theorem nodup_dedupAux : ∀ (l : List Str) (seen : List Str), (dedupAux seen l).Nodup := by
  intro l
  induction l with
  | nil => intro seen; simp [dedupAux]
  | cons y ys ih =>
    intro seen
    unfold dedupAux
    split_ifs with hy
    · exact ih seen
    · refine List.nodup_cons.mpr ⟨fun hmem => ?_, ih (y :: seen)⟩
      obtain ⟨-, h2⟩ := (mem_dedupAux ys (y :: seen)).mp hmem
      exact h2 (List.mem_cons_self _ _)

theorem normalize_hint_ne_nil {h : Str} (hne : h ≠ []) : normalize_hint h ≠ [] := by
  unfold normalize_hint
  rw [if_pos hne]
  simp only [REGION_ALIASES, lookupL]
  split_ifs <;> first | exact hne | (rw [Option.getD_some]; decide)

/-- Counterexample to C5 as stated: an invalid region hint is still placed
first in the tried list; the list the claim describes (hint only when it is
a known region) differs. -/
theorem build_regions_counterexample :
    build_regions (strOf "mars") (strOf "Xq")
      ≠ build_regions_claimed (strOf "mars") (strOf "Xq") ∧
    (build_regions (strOf "mars") (strOf "Xq")).headD [] = strOf "mars" ∧
    strOf "mars" ∉ REGIONS := by
  refine ⟨by decide, by decide, by decide⟩

theorem dedupAux_of_nodup :
    ∀ l : List Str, l.Nodup → ∀ seen : List Str,
      dedupAux seen l = l.filter (fun r => r ∉ seen) := by
  intro l
  induction l with
  | nil => intro _ seen; rfl
  | cons y ys ih =>
    intro hl seen
    obtain ⟨hy, hys⟩ := List.nodup_cons.mp hl
    rw [dedupAux, List.filter_cons]
    by_cases hseen : y ∈ seen
    · rw [if_pos hseen, ih hys seen, if_neg (by simpa using hseen)]
    · rw [if_neg hseen, ih hys (y :: seen), if_pos (by simpa using hseen)]
      congr 1
      refine List.filter_congr ?_
      intro x hx
      have hxy : x ≠ y := fun he => hy (he ▸ hx)
      rw [decide_eq_decide]
      simp [List.mem_cons, hxy]

/-- The exact region list produced by `build_regions`: the normalized hint
first when present, then the lowercased tag when it is a known region not
equal to the hint, then the fixed regions in their original order with the
hint and tag occurrences removed. -/
theorem build_regions_eq (hint tag : Str) :
    build_regions hint tag
      = (if normalize_hint hint = [] then
          if pyLower tag ∈ REGIONS then
            pyLower tag :: REGIONS.filter (fun r => r ≠ pyLower tag)
          else REGIONS
        else if pyLower tag ∈ REGIONS ∧ pyLower tag ≠ normalize_hint hint then
          normalize_hint hint :: pyLower tag ::
            REGIONS.filter (fun r => ¬(r = normalize_hint hint ∨ r = pyLower tag))
        else
          normalize_hint hint :: REGIONS.filter (fun r => r ≠ normalize_hint hint)) := by
  have hreg : REGIONS.Nodup := by decide
  unfold build_regions dedupFirst
  dsimp only
  by_cases hh : normalize_hint hint ≠ []
  · rw [if_pos hh, if_neg hh]
    by_cases ht : pyLower tag ∈ REGIONS ∧ pyLower tag ≠ normalize_hint hint
    · obtain ⟨ht1, ht2⟩ := ht
      rw [if_pos ht1, if_pos ⟨ht1, ht2⟩]
      simp only [List.singleton_append, List.cons_append, List.nil_append]
      rw [dedupAux, if_neg (List.not_mem_nil _), dedupAux, if_neg (by simp [ht2]),
        dedupAux_of_nodup REGIONS hreg]
      congr 2
      refine List.filter_congr ?_
      intro x hx
      rw [decide_eq_decide]
      simp only [List.mem_cons, List.not_mem_nil, or_false]
      tauto
    · rw [if_neg ht]
      by_cases ht1 : pyLower tag ∈ REGIONS
      · have ht2 : pyLower tag = normalize_hint hint := by
          by_contra hne
          exact ht ⟨ht1, hne⟩
        rw [if_pos ht1]
        simp only [List.singleton_append, List.cons_append, List.nil_append]
        rw [ht2, dedupAux, if_neg (List.not_mem_nil _), dedupAux,
          if_pos (List.mem_singleton.mpr rfl), dedupAux_of_nodup REGIONS hreg]
        congr 1
        refine List.filter_congr ?_
        intro x hx
        rw [decide_eq_decide]
        simp
      · rw [if_neg ht1]
        simp only [List.append_nil, List.singleton_append, List.nil_append]
        rw [dedupAux, if_neg (List.not_mem_nil _), dedupAux_of_nodup REGIONS hreg]
        congr 1
        refine List.filter_congr ?_
        intro x hx
        rw [decide_eq_decide]
        simp
  · rw [if_neg hh, if_pos (not_not.mp hh)]
    by_cases ht1 : pyLower tag ∈ REGIONS
    · rw [if_pos ht1, if_pos ht1]
      simp only [List.nil_append, List.singleton_append]
      rw [dedupAux, if_neg (List.not_mem_nil _), dedupAux_of_nodup REGIONS hreg]
      congr 1
      refine List.filter_congr ?_
      intro x hx
      rw [decide_eq_decide]
      simp
    · rw [if_neg ht1, if_neg ht1]
      simp only [List.nil_append]
      rw [dedupAux_of_nodup REGIONS hreg]
      refine List.filter_eq_self.mpr ?_
      intro a ha
      simp

/-- C5 (amended).  The tried region list is the normalized hint first
whenever one is present (with no validity check against the known-region
list), then the lowercased tag when it is a known region, then the fixed
region list in its original order, deduplicated keeping first occurrences.
The first conjunct is the exact list; the remaining conjuncts spell out
duplicate-freeness, completeness, soundness and the hint-first head. -/
theorem build_regions_spec :
    ∀ hint tag : Str,
      (build_regions hint tag
        = (if normalize_hint hint = [] then
            if pyLower tag ∈ REGIONS then
              pyLower tag :: REGIONS.filter (fun r => r ≠ pyLower tag)
            else REGIONS
          else if pyLower tag ∈ REGIONS ∧ pyLower tag ≠ normalize_hint hint then
            normalize_hint hint :: pyLower tag ::
              REGIONS.filter (fun r => ¬(r = normalize_hint hint ∨ r = pyLower tag))
          else
            normalize_hint hint :: REGIONS.filter (fun r => r ≠ normalize_hint hint))) ∧
      (build_regions hint tag).Nodup ∧
      (∀ r ∈ REGIONS, r ∈ build_regions hint tag) ∧
      (∀ r ∈ build_regions hint tag,
        r = normalize_hint hint ∨ r = pyLower tag ∨ r ∈ REGIONS) ∧
      (hint ≠ [] → (build_regions hint tag).headD [] = normalize_hint hint) := by
  intro hint tag
  refine ⟨build_regions_eq hint tag, nodup_dedupAux _ _, ?_, ?_, ?_⟩
  · intro r hr
    refine (mem_dedupAux _ _).mpr ⟨?_, by simp⟩
    exact List.mem_append.mpr (Or.inr hr)
  · intro r hr
    obtain ⟨h1, -⟩ := (mem_dedupAux _ _).mp hr
    rcases List.mem_append.mp h1 with h | h
    · rcases List.mem_append.mp h with h' | h'
      · left
        split_ifs at h' with hh
        · exact List.mem_singleton.mp h'
        · cases h'
      · right; left
        split_ifs at h' with ht
        · exact List.mem_singleton.mp h'
        · cases h'
    · right; right; exact h
  · intro hne
    have hnn := normalize_hint_ne_nil hne
    unfold build_regions
    dsimp only
    rw [if_pos hnn]
    rfl

/-- Witness for C5's amended theorem: an aliased hint with a region tag, and
the no-hint case where the tag region is tried first. -/
theorem build_regions_spec_witness :
    strOf "euw" ∈ build_regions (strOf "euwest") (strOf "KR") ∧
    (build_regions (strOf "euwest") (strOf "KR")).headD [] = normalize_hint (strOf "euwest") ∧
    build_regions (strOf "euwest") (strOf "KR")
      = [strOf "euw", strOf "kr", strOf "eune", strOf "tr", strOf "ru", strOf "na"] ∧
    build_regions [] (strOf "KR")
      = [strOf "kr", strOf "eune", strOf "euw", strOf "tr", strOf "ru", strOf "na"] := by
  have h := build_regions_spec (strOf "euwest") (strOf "KR")
  have h2 := build_regions_spec [] (strOf "KR")
  refine ⟨h.2.2.1 (strOf "euw") (by decide), h.2.2.2.2 (by decide), ?_, ?_⟩
  · rw [h.1]
    decide
  · rw [h2.1]
    decide

-- ===========================================================================
-- C7: the region loop stops at the first hit
-- ===========================================================================

/-- C7.  The region loop equals a first-match search: it returns the first
region whose fetched response either yields a concrete extracted rank
(current or peak) or contains the queried name case-insensitively, together
with that response's parse; a region is a hit exactly under that
disjunction; and when no region hits, the player record is returned
unchanged (in particular a default player keeps its Unranked/empty
defaults). -/
theorem fetch_loop_first_hit :
    ∀ (fetch : Str → Option Str) (name : Str) (regions : List Str) (p : Player),
      (fetch_loop fetch name regions
        = (regions.find? (region_hit fetch name)).map
            (fun r => (r, parse_opgg_response ((fetch r).getD [])))) ∧
      (∀ r : Str, region_hit fetch name r = true ↔
        ∃ text, fetch r = some text ∧
          ((parse_opgg_response text).current_rank ≠ strOf "UNRANKED" ∨
           (parse_opgg_response text).peak_rank ≠ strOf "UNRANKED" ∨
           hasSub (pyLower name) (pyLower text) = true)) ∧
      ((∀ r ∈ regions, region_hit fetch name r = false) →
        fetch_player_regions fetch name regions p = p) := by
  intro fetch name regions p
  have hloop : fetch_loop fetch name regions
      = (regions.find? (region_hit fetch name)).map
          (fun r => (r, parse_opgg_response ((fetch r).getD []))) := by
    induction regions with
    | nil => rfl
    | cons r rs ih =>
      unfold fetch_loop
      cases hf : fetch r with
      | none =>
        have hhit : region_hit fetch name r = false := by
          unfold region_hit
          rw [hf]
        rw [List.find?_cons_of_neg _ (by simp [hhit]), ih]
      | some text =>
        by_cases hC : (parse_opgg_response text).current_rank = strOf "UNRANKED"
            ∧ (parse_opgg_response text).peak_rank = strOf "UNRANKED"
            ∧ hasSub (pyLower name) (pyLower text) = false
        · have hhit : region_hit fetch name r = false := by
            unfold region_hit
            rw [hf]
            simp only [decide_eq_false_iff_not, not_not]
            exact hC
          dsimp only
          rw [if_pos hC, List.find?_cons_of_neg _ (by simp [hhit]), ih]
        · have hhit : region_hit fetch name r = true := by
            unfold region_hit
            rw [hf]
            simp only [decide_eq_true_eq]
            exact hC
          dsimp only
          rw [if_neg hC, List.find?_cons_of_pos _ hhit, Option.map_some', hf]
          rfl
  refine ⟨hloop, ?_, ?_⟩
  · intro r
    unfold region_hit
    cases hf : fetch r with
    | none => simp
    | some text =>
      simp only [decide_eq_true_eq, Option.some.injEq]
      constructor
      · intro hnc
        refine ⟨text, rfl, ?_⟩
        cases hhs : hasSub (pyLower name) (pyLower text) with
        | true => exact Or.inr (Or.inr rfl)
        | false =>
          have hAB : ¬((parse_opgg_response text).current_rank = strOf "UNRANKED"
              ∧ (parse_opgg_response text).peak_rank = strOf "UNRANKED") :=
            fun ⟨hA, hB⟩ => hnc ⟨hA, hB, hhs⟩
          tauto
      · rintro ⟨text', heq, hP⟩
        subst heq
        rintro ⟨hA, hB, hC⟩
        rcases hP with h | h | h
        · exact h hA
        · exact h hB
        · rw [h] at hC
          cases hC
  · intro hall
    unfold fetch_player_regions
    rw [hloop, List.find?_eq_none.mpr (fun a ha => by simp [hall a ha])]
    rfl

/-- Witness for C7: with a collaborator that returns nothing, no region hits
and a default player is left at its defaults. -/
theorem fetch_loop_first_hit_witness :
    (∀ r ∈ REGIONS, region_hit (fun _ => none) (strOf "x") r = false) ∧
    fetch_player_regions (fun _ => none) (strOf "x") REGIONS {} = {} ∧
    (({} : Player).current_rank = strOf "UNRANKED" ∧ ({} : Player).region = []) := by
  refine ⟨by decide, ?_, by decide⟩
  exact (fetch_loop_first_hit (fun _ => none) (strOf "x") REGIONS {}).2.2 (by decide)

-- ===========================================================================
-- C6: team scores and the stable descending sort
-- ===========================================================================

theorem insertTeamDesc_perm (x : Team) (l : List Team) :
    (insertTeamDesc x l).Perm (x :: l) := by
  induction l with
  | nil => exact List.Perm.refl _
  | cons y ys ih =>
    unfold insertTeamDesc
    split_ifs
    · exact List.Perm.refl _
    · exact (List.Perm.cons y ih).trans (List.Perm.swap x y ys)

theorem sort_teams_perm (l : List Team) : (sort_teams l).Perm l := by
  induction l with
  | nil => exact List.Perm.refl _
  | cons x xs ih =>
    exact (insertTeamDesc_perm x (sort_teams xs)).trans (List.Perm.cons x ih)

theorem insertTeamDesc_sorted {x : Team} {l : List Team}
    (h : l.Pairwise (fun a b => b.regular_score ≤ a.regular_score)) :
    (insertTeamDesc x l).Pairwise (fun a b => b.regular_score ≤ a.regular_score) := by
  induction l with
  | nil => simp [insertTeamDesc]
  | cons y ys ih =>
    obtain ⟨hy, hys⟩ := List.pairwise_cons.mp h
    unfold insertTeamDesc
    split_ifs with hxy
    · refine List.pairwise_cons.mpr ⟨?_, h⟩
      intro z hz
      rcases List.mem_cons.mp hz with hz | hz
      · rw [hz]; exact hxy
      · exact le_trans (hy z hz) hxy
    · refine List.pairwise_cons.mpr ⟨?_, ih hys⟩
      intro z hz
      have hz' := (insertTeamDesc_perm x ys).mem_iff.mp hz
      rcases List.mem_cons.mp hz' with hz' | hz'
      · rw [hz']; omega
      · exact hy z hz'

theorem sort_teams_sorted (l : List Team) :
    (sort_teams l).Pairwise (fun a b => b.regular_score ≤ a.regular_score) := by
  induction l with
  | nil => simp [sort_teams]
  | cons x xs ih => exact insertTeamDesc_sorted ih

theorem filter_insertTeamDesc (x : Team) (l : List Team) (k : Int) :
    (insertTeamDesc x l).filter (fun t => t.regular_score == k)
      = (x :: l).filter (fun t => t.regular_score == k) := by
  induction l with
  | nil => rfl
  | cons y ys ih =>
    unfold insertTeamDesc
    split_ifs with hxy
    · rfl
    · by_cases hxk : x.regular_score = k
      · have hyk : y.regular_score ≠ k := by omega
        simp [List.filter_cons, ih, hxk, hyk]
      · simp [List.filter_cons, ih, hxk]

theorem sort_teams_filter (l : List Team) (k : Int) :
    (sort_teams l).filter (fun t => t.regular_score == k)
      = l.filter (fun t => t.regular_score == k) := by
  induction l with
  | nil => rfl
  | cons x xs ih =>
    unfold sort_teams
    rw [filter_insertTeamDesc, List.filter_cons, List.filter_cons, ih]

/-- C6.  Scoring sums the first five players' total LP into `regular_score`
and all (seven) players' total LP into `total_score`; the final list is a
permutation of the scored teams, ordered by `regular_score` descending, and
stable: for every score value, the teams having it appear in their original
relative order. -/
theorem team_scores_and_sort :
    ∀ ts : List Team, (∀ t ∈ ts, t.players.length = 7) →
      (∀ t ∈ ts, (score_team t).regular_score
          = ((t.players.take 5).map Player.total_lp).sum ∧
        (score_team t).total_score = (t.players.map Player.total_lp).sum) ∧
      (sort_teams (ts.map score_team)).Perm (ts.map score_team) ∧
      (sort_teams (ts.map score_team)).Pairwise
        (fun a b => b.regular_score ≤ a.regular_score) ∧
      (∀ k : Int, (sort_teams (ts.map score_team)).filter (fun t => t.regular_score == k)
        = (ts.map score_team).filter (fun t => t.regular_score == k)) := by
  intro ts h7
  exact ⟨fun t ht => ⟨rfl, rfl⟩, sort_teams_perm _, sort_teams_sorted _,
    fun k => sort_teams_filter _ k⟩

/-- A player with a given total LP and otherwise default fields. -/
def wPlayer (n : Int) : Player := { total_lp := n }

/-- A team with the given players' total LP values and default metadata. -/
def wTeam (l : List Int) : Team := { players := l.map wPlayer }

/-- Witness for C6 on two concrete seven-player teams. -/
theorem team_scores_and_sort_witness :
    (∀ t ∈ [wTeam [1, 2, 3, 4, 5, 6, 7], wTeam [10, 0, 0, 0, 0, 0, 0]],
      t.players.length = 7) ∧
    (score_team (wTeam [1, 2, 3, 4, 5, 6, 7])).regular_score = 15 ∧
    (score_team (wTeam [1, 2, 3, 4, 5, 6, 7])).total_score = 28 ∧
    (sort_teams ([wTeam [1, 2, 3, 4, 5, 6, 7], wTeam [10, 0, 0, 0, 0, 0, 0]].map
      score_team)).Pairwise (fun a b => b.regular_score ≤ a.regular_score) := by
  have h := team_scores_and_sort
    [wTeam [1, 2, 3, 4, 5, 6, 7], wTeam [10, 0, 0, 0, 0, 0, 0]] (by decide)
  exact ⟨by decide, by decide, by decide, h.2.2.1⟩
